import Mathlib

/-!
A shallow embedding of the statistics engine of `src/app.py`: the
tokenizer-based word extraction (`extract_words`), the frequency counter
(`calculate_frequency`), the co-occurrence counter of `generate_network`,
and the chi-squared characteristic-word selector
(`calculate_characteristic_words`), together with proofs of the
properties in the specification.

Modelling decisions, each marked at its definition:
* The external Janome analyzer is modelled as the token list it returns
  for a text; `extract_words` is a pure function of that list.
* Python dict/`Counter` insertion order is first-occurrence order;
  Python's `sort`/`sorted`/`Counter.most_common` are stable sorts, and a
  stable sort is extensionally unique, so they are modelled by a stable
  insertion sort (structural, hence executable in proofs by `decide`).
* Python's float arithmetic on p-values and expected counts is modelled
  by exact rational arithmetic; scipy's `chi2_contingency` is abstracted
  by arbitrary functions `pval`, `chi2f` of the four contingency cells,
  while its expected count for cell a is the exact
  (row total)·(column total)/(grand total).
-/

namespace App

/-! ### Stable sorting (Python `sorted` / `list.sort` / `Counter.most_common`) -/

/-- Inserts `x` into `l` before the first element `y` with `le x y`; used
from the left this keeps equal-key elements in their original order,
which is exactly Python's stability guarantee. -/
def insertStable {α : Type} (le : α → α → Bool) (x : α) : List α → List α
  | [] => [x]
  | y :: ys => if le x y then x :: y :: ys else y :: insertStable le x ys

/-- Stable insertion sort.  Any two stable sorts agree on every input, so
this models Python's (timsort-based) `sorted(key=...)`. -/
def sortStable {α : Type} (le : α → α → Bool) : List α → List α
  | [] => []
  | x :: xs => insertStable le x (sortStable le xs)

/-! ### First-occurrence deduplication (Python `dict`/`Counter` key order) -/

/-- Worker for `uniqueInOrder`: `seen` holds the keys already emitted. -/
def uiAux {α : Type} [DecidableEq α] (seen : List α) : List α → List α
  | [] => []
  | x :: xs => if x ∈ seen then uiAux seen xs else x :: uiAux (x :: seen) xs

/-- The distinct elements of `l` in order of first occurrence: the key
order of a Python `dict`/`Counter` built by insertion from `l`. -/
def uniqueInOrder {α : Type} [DecidableEq α] (l : List α) : List α :=
  uiAux [] l

/-! ### Lexicographic string order (Python `sorted` on strings)

Python compares strings by code point, left to right; `Char` in Lean is
ordered by code point, so the comparison runs over `String.data`. -/

/-- Lexicographic non-strict comparison of character lists. -/
def charLe : List Char → List Char → Bool
  | [], _ => true
  | _ :: _, [] => false
  | c :: cs, d :: ds => if c = d then charLe cs ds else decide (c < d)

/-- Python's `s1 <= s2` on strings. -/
def leString (a b : String) : Bool := charLe a.data b.data

/-- Python's `s1 < s2` on strings. -/
def ltString (a b : String) : Bool := charLe a.data b.data && !(a == b)

/-! ### Tokenizer / extractor (`extract_words`, src/app.py 44-58) -/

/-- One token as produced by the external Janome morphological analyzer:
the surface form, the base (dictionary) form, and the comma-separated
part-of-speech fields.  Janome exposes the latter as one comma-joined
string of which the code reads `split(',')[0]`; the embedding takes the
fields already split, and reads field `[0]` as `headD`. -/
structure Token where
  surface : String
  base_form : String
  part_of_speech : List String
deriving DecidableEq

/-- Python's `str.isdigit`: nonempty and every character a digit. -/
def pyIsdigit (s : String) : Bool :=
  !s.isEmpty && s.data.all Char.isDigit

/-- The per-token filter of `extract_words` (src/app.py 52-56): skip
tokens whose surface or base form is purely numeric, keep nouns, verbs
and adjectives whose base form is longer than one character.  Note that
no stopword test appears here, faithfully to the source. -/
def keepToken (t : Token) : Bool :=
  !pyIsdigit t.surface && !pyIsdigit t.base_form &&
    ["名詞", "動詞", "形容詞"].contains (t.part_of_speech.headD "") &&
    decide (1 < t.base_form.length)

/-- `extract_words` (src/app.py 45-58) on the token list the analyzer
returned: the base forms of the retained tokens, in order, duplicates
kept. -/
def extract_words (tokens : List Token) : List String :=
  (tokens.filter keepToken).map Token.base_form

/-- A raw spreadsheet cell as `extract_words` receives it:
`isinstance(text, str)` distinguishes a string from null (None/NaN),
a number, or any other non-string value. -/
inductive CellValue where
  | str (s : String)
  | null
  | num (x : Int)
  | other
deriving DecidableEq

/-- The `isinstance(text, str)` test. -/
def CellValue.isStr : CellValue → Bool
  | .str _ => true
  | _ => false

/-- `extract_words` including its input guard (src/app.py 46-47): a
non-string cell yields `[]`; a string cell is tokenized by the external
analyzer `tok` and filtered. -/
def extract_words_cell (tok : String → List Token) : CellValue → List String
  | .str s => extract_words (tok s)
  | _ => []

/-- The fixed baseline stopword list (src/app.py 34-39), verbatim;
Python stores it as a `set`, so only membership matters (the source text
contains なる twice, kept here as written). -/
def BASE_STOPWORDS : List String :=
  ["の", "に", "は", "を", "た", "です", "ます", "が", "で", "も", "て", "と", "し", "れ", "さ",
   "ある", "いる", "する", "ない", "こと", "もの", "これ", "それ", "あれ", "よう", "ため", "人",
   "中", "等", "思う", "いう", "なる", "日", "時", "くださる", "いただく", "しれる", "くる",
   "おる", "れる", "られる", "せる", "させる", "できる", "なる", "やる", "いく", "行う", "言う",
   "申し上げる", "まいる", "見る", "ここ", "そこ", "あそこ", "こちら", "そちら", "あちら",
   "この", "その", "あの"]

/-! ### Frequency counter (`calculate_frequency`, src/app.py 541-547) -/

/-- Python `Counter(l)` as an association list: keys in first-insertion
order, each with its multiplicity in `l`. -/
def counterItems (l : List String) : List (String × Nat) :=
  (uniqueInOrder l).map (fun w => (w, l.count w))

/-- The comparator of `Counter.most_common` / `sorted(key=count,
reverse=True)`: descending by count, stable. -/
def geByCount (a b : String × Nat) : Bool := Nat.ble b.2 a.2

/-- Attaches the 1-based ranks (`freq_df.index + 1`, src/app.py 546). -/
def addRanks (start : Nat) : List (String × Nat) → List (Nat × String × Nat)
  | [] => []
  | e :: rest => (start, e.1, e.2) :: addRanks (start + 1) rest

/-- `calculate_frequency` (src/app.py 541-547): drop stopwords, count,
keep the `top_n` most frequent (the source defaults `top_n` to 50), rank
them from 1.  An empty filtered list yields the empty table. -/
def calculate_frequency (words sw : List String) (top_n : Nat) :
    List (Nat × String × Nat) :=
  let filtered := words.filter (fun w => !sw.contains w)
  if filtered.isEmpty then []
  else addRanks 1 ((sortStable geByCount (counterItems filtered)).take top_n)

/-! ### Co-occurrence network (`generate_network`, src/app.py 466-480) -/

/-- All 2-element combinations in order: `itertools.combinations(l, 2)`. -/
def pairsOf2 {α : Type} : List α → List (α × α)
  | [] => []
  | x :: xs => xs.map (fun y => (x, y)) ++ pairsOf2 xs

/-- The per-document `sorted(list(set(w for w in words if w not in
stopwords)))` of src/app.py 470. -/
def docUniqueWords (words sw : List String) : List String :=
  sortStable leString (uniqueInOrder (words.filter (fun w => !sw.contains w)))

/-- The unordered word pairs one document contributes (src/app.py 471). -/
def docPairs (words sw : List String) : List (String × String) :=
  pairsOf2 (docUniqueWords words sw)

/-- The stream of all pair occurrences over all documents, in loop order. -/
def allDocPairs (docs : List (List String)) (sw : List String) :
    List (String × String) :=
  docs.flatMap (fun ws => docPairs ws sw)

/-- One `co_occur_counter[(w1, w2)] += 1` step on an association list:
update the existing entry or append a new one with count 1. -/
def bump (k : String × String) :
    List ((String × String) × Nat) → List ((String × String) × Nat)
  | [] => [(k, 1)]
  | e :: rest => if e.1 = k then (e.1, e.2 + 1) :: rest else e :: bump k rest

/-- The `co_occur_counter` of src/app.py 468-471. -/
def co_occur_counter (docs : List (List String)) (sw : List String) :
    List ((String × String) × Nat) :=
  (allDocPairs docs sw).foldl (fun acc p => bump p acc) []

/-- The comparator of `Counter.most_common(70)`: descending by weight,
stable (`heapq.nlargest` is documented as `sorted(..., reverse=True)[:n]`). -/
def geByWeight (a b : (String × String) × Nat) : Bool := Nat.ble b.2 a.2

/-- `co_occur_counter.most_common(70)` (src/app.py 473). -/
def top_pairs (docs : List (List String)) (sw : List String) :
    List ((String × String) × Nat) :=
  (sortStable geByWeight (co_occur_counter docs sw)).take 70

/-- The graph-construction core of `generate_network` (src/app.py
468-480): the degenerate-input message when no pair survives, otherwise
the weighted edge list of the graph (`G.add_edge(w1, w2, weight)` for
each top pair; the keys are distinct, so the edge list is exactly
`top_pairs`).  Node sizing, community colouring and drawing are
presentation and out of scope. -/
def generate_network (docs : List (List String)) (sw : List String) :
    Except String (List ((String × String) × Nat)) :=
  let tp := top_pairs docs sw
  if tp.isEmpty then .error "共起ネットワーク生成不可（共起ペア不足）。" else .ok tp

/-! ### Characteristic words (`calculate_characteristic_words`,
src/app.py 260-283) -/

/-- One input row as the selector sees it: the value of the chosen
attribute column (`none` models a null/NaN cell) and the token list the
analysis step attached as column `words`.  The unused `text_col`
parameter of the source is omitted. -/
structure Doc where
  attr : Option String
  words : List String
deriving DecidableEq

/-- `_df[attribute_col].dropna().unique()` (src/app.py 263): the
distinct non-null attribute values in first-appearance order. -/
def uniqueAttrs (docs : List Doc) : List String :=
  uniqueInOrder (docs.filterMap Doc.attr)

/-- `total_docs = len(_df)` (src/app.py 267). -/
def totalDocs (docs : List Doc) : Nat := docs.length

/-- `_df[_df[attribute_col] == attr_value]` (src/app.py 269): rows whose
attribute equals the category value; a null never equals a value. -/
def attrDocs (docs : List Doc) (v : String) : List Doc :=
  docs.filter (fun d => d.attr == some v)

/-- `_df[_df[attribute_col] != attr_value]` (src/app.py 269): rows whose
attribute differs from the category value; pandas sends null-attribute
rows here, since `NaN != v` holds. -/
def nonAttrDocs (docs : List Doc) (v : String) : List Doc :=
  docs.filter (fun d => !(d.attr == some v))

/-- `total_docs_in_attr = len(attr_df)` (src/app.py 270). -/
def totalInAttr (docs : List Doc) (v : String) : Nat := (attrDocs docs v).length

/-- `total_docs_not_in_attr = total_docs - total_docs_in_attr`
(src/app.py 270). -/
def totalNotInAttr (docs : List Doc) (v : String) : Nat :=
  totalDocs docs - totalInAttr docs v

/-- Cell a (src/app.py 274): documents of the category whose token list
contains the word. -/
def aCell (docs : List Doc) (v w : String) : Nat :=
  (attrDocs docs v).countP (fun d => d.words.contains w)

/-- Cell b (src/app.py 274): documents outside the category whose token
list contains the word. -/
def bCell (docs : List Doc) (v w : String) : Nat :=
  (nonAttrDocs docs v).countP (fun d => d.words.contains w)

/-- Cell c: `total_docs_in_attr - a` (src/app.py 275). -/
def cCell (docs : List Doc) (v w : String) : Nat :=
  totalInAttr docs v - aCell docs v w

/-- Cell d: `total_docs_not_in_attr - b` (src/app.py 275). -/
def dCell (docs : List Doc) (v w : String) : Nat :=
  totalNotInAttr docs v - bCell docs v w

/-- The candidate vocabulary (src/app.py 266): every word of every
document's token list that is not a stopword.  Python iterates it as a
`set`, whose order is unspecified; it is modelled in first-appearance
order, and no proved property depends on that choice. -/
def allWords (docs : List Doc) (sw : List String) : List String :=
  uniqueInOrder ((docs.flatMap Doc.words).filter (fun w => !sw.contains w))

/-- The expected count of cell a under independence, exactly as scipy's
`chi2_contingency` computes it: (row total)·(column total)/(grand
total), in exact rational arithmetic (`mkRat` is that quotient). -/
def expectedA (docs : List Doc) (v w : String) : ℚ :=
  mkRat (((aCell docs v w + bCell docs v w) *
          (aCell docs v w + cCell docs v w) : ℕ) : Int)
    (aCell docs v w + bCell docs v w + cCell docs v w + dCell docs v w)

/-- The threshold `0.05` of src/app.py 280, as an exact rational. -/
def pThreshold : ℚ := mkRat 1 20

/-- The per-category word loop of src/app.py 273-281.  `pval` and
`chi2f` abstract the p-value and statistic scipy's `chi2_contingency`
returns for the table `[[a, b], [c, d]]`; with all four marginals
positive every expected count is positive, so the `ValueError` branch of
the source (raised exactly when an expected count is zero) is
unreachable.  A word is retained iff `p < 0.05 and a > expected[0, 0]`
(src/app.py 280). -/
def retainedWords (docs : List Doc) (sw : List String)
    (pval chi2f : Nat → Nat → Nat → Nat → ℚ) (v : String) :
    List (String × ℚ × ℚ) :=
  (allWords docs sw).filterMap (fun w =>
    let a := aCell docs v w
    let b := bCell docs v w
    let c := cCell docs v w
    let d := dCell docs v w
    if a + b = 0 ∨ a + c = 0 ∨ b + d = 0 ∨ c + d = 0 then none
    else if pval a b c d < pThreshold ∧ expectedA docs v w < (a : ℚ) then
      some (w, pval a b c d, chi2f a b c d)
    else none)

/-- The comparator of `characteristic_words.sort(key=lambda x: x[1])`
(src/app.py 282): ascending by p-value, stable. -/
def leByP (x y : String × ℚ × ℚ) : Bool := decide (x.2.1 ≤ y.2.1)

/-- `calculate_characteristic_words` (src/app.py 261-283): fail when the
attribute has fewer than 2 distinct non-null values, otherwise for each
category (skipping the degenerate ones, src/app.py 271) the retained
words sorted ascending by p-value and truncated to 20.  The dict of the
source is an association list in category order. -/
def calculate_characteristic_words (docs : List Doc) (sw : List String)
    (pval chi2f : Nat → Nat → Nat → Nat → ℚ) :
    Except String (List (String × List (String × ℚ × ℚ))) :=
  let unique_attrs := uniqueAttrs docs
  if unique_attrs.length < 2 then .error "比較対象の属性が2つ未満です。"
  else .ok (unique_attrs.filterMap (fun v =>
    if totalInAttr docs v = 0 ∨ totalNotInAttr docs v = 0 then none
    else some (v,
      (sortStable leByP (retainedWords docs sw pval chi2f v)).take 20)))

/-- Lookup of a counter key (0 when absent), reading the first matching
entry as a Python dict does. -/
def cval {β : Type} [DecidableEq β] (k : β) : List (β × Nat) → Nat
  | [] => 0
  | e :: rest => if e.1 = k then e.2 else cval k rest

/-- Concrete corpus with null-attribute rows, used by the C10 witness. -/
def docsWithNulls : List Doc :=
  [⟨some "A", ["x"]⟩, ⟨none, ["x"]⟩, ⟨none, ["y"]⟩]

/-! ## Lemmas about the stable insertion sort -/

theorem mem_insertStable {α : Type} (le : α → α → Bool) (x a : α) (l : List α) :
    a ∈ insertStable le x l ↔ a = x ∨ a ∈ l := by
  induction l with
  | nil => simp [insertStable]
  | cons y ys ih =>
    cases hxy : le x y with
    | true => simp [insertStable, hxy]
    | false =>
      simp only [insertStable, hxy, Bool.false_eq_true, if_false, List.mem_cons, ih]
      tauto

theorem perm_insertStable {α : Type} (le : α → α → Bool) (x : α) (l : List α) :
    List.Perm (insertStable le x l) (x :: l) := by
  induction l with
  | nil => exact List.Perm.refl _
  | cons y ys ih =>
    cases hxy : le x y with
    | true => simp [insertStable, hxy]
    | false =>
      simp only [insertStable, hxy, Bool.false_eq_true, if_false]
      exact (ih.cons y).trans (List.Perm.swap x y ys)

theorem perm_sortStable {α : Type} (le : α → α → Bool) (l : List α) :
    List.Perm (sortStable le l) l := by
  induction l with
  | nil => exact List.Perm.refl _
  | cons x xs ih => exact (perm_insertStable le x (sortStable le xs)).trans (ih.cons x)

theorem pairwise_insertStable {α : Type} {le : α → α → Bool}
    (htrans : ∀ a b c, le a b = true → le b c = true → le a c = true)
    (htotal : ∀ a b, le a b = true ∨ le b a = true)
    (x : α) {l : List α} (hl : List.Pairwise (fun a b => le a b = true) l) :
    List.Pairwise (fun a b => le a b = true) (insertStable le x l) := by
  induction l with
  | nil => simp [insertStable]
  | cons y ys ih =>
    rcases List.pairwise_cons.mp hl with ⟨hy, hys⟩
    cases hxy : le x y with
    | true =>
      simp only [insertStable, hxy, if_true]
      refine List.pairwise_cons.mpr ⟨?_, hl⟩
      intro b hb
      rcases List.mem_cons.mp hb with rfl | hb
      · exact hxy
      · exact htrans x y b hxy (hy b hb)
    | false =>
      simp only [insertStable, hxy, Bool.false_eq_true, if_false]
      refine List.pairwise_cons.mpr ⟨?_, ih hys⟩
      intro b hb
      rcases (mem_insertStable le x b ys).mp hb with rfl | hb
      · rcases htotal b y with h | h
        · rw [h] at hxy; cases hxy
        · exact h
      · exact hy b hb

theorem pairwise_sortStable {α : Type} {le : α → α → Bool}
    (htrans : ∀ a b c, le a b = true → le b c = true → le a c = true)
    (htotal : ∀ a b, le a b = true ∨ le b a = true) (l : List α) :
    List.Pairwise (fun a b => le a b = true) (sortStable le l) := by
  induction l with
  | nil => simp [sortStable]
  | cons x xs ih => exact pairwise_insertStable htrans htotal x ih

theorem sublist_insertStable {α : Type} (le : α → α → Bool) (x : α) (l : List α) :
    List.Sublist l (insertStable le x l) := by
  induction l with
  | nil => simp [insertStable]
  | cons y ys ih =>
    cases hxy : le x y with
    | true =>
      simp only [insertStable, hxy, if_true]
      exact List.sublist_cons_self x (y :: ys)
    | false =>
      simp only [insertStable, hxy, Bool.false_eq_true, if_false]
      exact List.Sublist.cons₂ y ih

theorem pair_sublist_insertStable {α : Type} (le : α → α → Bool) {x y : α}
    (hxy : le x y = true) {l : List α} (hy : y ∈ l) :
    List.Sublist [x, y] (insertStable le x l) := by
  induction l with
  | nil => cases hy
  | cons z zs ih =>
    cases hxz : le x z with
    | true =>
      simp only [insertStable, hxz, if_true]
      exact List.Sublist.cons₂ x (List.singleton_sublist.mpr hy)
    | false =>
      simp only [insertStable, hxz, Bool.false_eq_true, if_false]
      rcases List.mem_cons.mp hy with rfl | hy'
      · rw [hxy] at hxz; cases hxz
      · exact List.Sublist.cons z (ih hy')

theorem pair_sublist_sortStable {α : Type} (le : α → α → Bool) {x y : α}
    (hxy : le x y = true) : ∀ {l : List α},
    List.Sublist [x, y] l → List.Sublist [x, y] (sortStable le l) := by
  intro l
  induction l with
  | nil => intro h; cases h
  | cons z zs ih =>
    intro h
    cases h with
    | cons _ h' => exact (ih h').trans (sublist_insertStable le z (sortStable le zs))
    | cons₂ _ h' =>
      have hy : y ∈ sortStable le zs :=
        (perm_sortStable le zs).mem_iff.mpr (List.singleton_sublist.mp h')
      exact pair_sublist_insertStable le hxy hy

/-! ## Generic list lemmas -/

theorem pair_sublist_of_get {α : Type} : ∀ (l : List α) (i j : Nat) (hi : i < l.length)
    (hj : j < l.length), i < j → List.Sublist [l.get ⟨i, hi⟩, l.get ⟨j, hj⟩] l := by
  intro l
  induction l with
  | nil => intro i j hi _ _; exact absurd hi (Nat.not_lt_zero i)
  | cons a tl ih =>
    intro i j hi hj hij
    cases i with
    | zero =>
      cases j with
      | zero => exact absurd hij (lt_irrefl 0)
      | succ j' =>
        simp only [List.get_cons_zero, List.get_cons_succ]
        exact List.Sublist.cons₂ a
          (List.singleton_sublist.mpr (List.get_mem tl _ _))
    | succ i' =>
      cases j with
      | zero => exact absurd hij (Nat.not_lt_zero _)
      | succ j' =>
        simp only [List.get_cons_succ]
        exact List.Sublist.cons a (ih i' j' _ _ (Nat.lt_of_succ_lt_succ hij))

theorem sublist_pair_antisymm {α : Type} {x y : α} : ∀ {l : List α}, l.Nodup →
    List.Sublist [x, y] l → List.Sublist [y, x] l → x = y := by
  intro l
  induction l with
  | nil => intro _ h; cases h
  | cons a tl ih =>
    intro hnd h1 h2
    rcases List.nodup_cons.mp hnd with ⟨ha, hnd'⟩
    cases h1 with
    | cons _ h1' =>
      cases h2 with
      | cons _ h2' => exact ih hnd' h1' h2'
      | cons₂ _ h2' =>
        exact absurd (h1'.subset (by simp)) ha
    | cons₂ _ h1' =>
      cases h2 with
      | cons _ h2' => exact absurd (h2'.subset (by simp)) ha
      | cons₂ _ h2' => rfl

theorem sublist_pair_of_mem {α : Type} {x y : α} (hxy : x ≠ y) :
    ∀ {l : List α}, x ∈ l → y ∈ l →
      List.Sublist [x, y] l ∨ List.Sublist [y, x] l := by
  intro l
  induction l with
  | nil => intro h; cases h
  | cons a tl ih =>
    intro hx hy
    rcases List.mem_cons.mp hx with rfl | hx'
    · have hy' : y ∈ tl := by
        rcases List.mem_cons.mp hy with h | h
        · exact absurd h.symm hxy
        · exact h
      exact Or.inl (List.Sublist.cons₂ x (List.singleton_sublist.mpr hy'))
    · rcases List.mem_cons.mp hy with rfl | hy'
      · exact Or.inr (List.Sublist.cons₂ y (List.singleton_sublist.mpr hx'))
      · rcases ih hx' hy' with h | h
        · exact Or.inl (List.Sublist.cons a h)
        · exact Or.inr (List.Sublist.cons a h)

/-! ## Lemmas about first-occurrence deduplication -/

theorem mem_uiAux {α : Type} [DecidableEq α] (a : α) :
    ∀ (l seen : List α), a ∈ uiAux seen l ↔ a ∈ l ∧ a ∉ seen := by
  intro l
  induction l with
  | nil => intro seen; simp [uiAux]
  | cons x xs ih =>
    intro seen
    by_cases hx : x ∈ seen
    · rw [uiAux, if_pos hx, ih seen]
      constructor
      · rintro ⟨h1, h2⟩; exact ⟨List.mem_cons_of_mem x h1, h2⟩
      · rintro ⟨h1, h2⟩
        rcases List.mem_cons.mp h1 with rfl | h1
        · exact absurd hx h2
        · exact ⟨h1, h2⟩
    · rw [uiAux, if_neg hx]
      constructor
      · intro h
        rcases List.mem_cons.mp h with rfl | h
        · exact ⟨List.mem_cons_self a xs, hx⟩
        · rcases (ih (x :: seen)).mp h with ⟨h1, h2⟩
          exact ⟨List.mem_cons_of_mem x h1,
            fun hs => h2 (List.mem_cons_of_mem x hs)⟩
      · rintro ⟨h1, h2⟩
        by_cases hax : a = x
        · exact hax ▸ List.mem_cons_self x _
        · rcases List.mem_cons.mp h1 with rfl | h1
          · exact absurd rfl hax
          · refine List.mem_cons_of_mem x ((ih (x :: seen)).mpr ⟨h1, ?_⟩)
            intro hs
            rcases List.mem_cons.mp hs with rfl | hs
            · exact hax rfl
            · exact h2 hs

theorem nodup_uiAux {α : Type} [DecidableEq α] :
    ∀ (l seen : List α), (uiAux seen l).Nodup := by
  intro l
  induction l with
  | nil => intro _; simp [uiAux]
  | cons x xs ih =>
    intro seen
    by_cases hx : x ∈ seen
    · rw [uiAux, if_pos hx]; exact ih seen
    · rw [uiAux, if_neg hx]
      refine List.nodup_cons.mpr ⟨?_, ih (x :: seen)⟩
      intro hmem
      exact ((mem_uiAux x xs (x :: seen)).mp hmem).2 (List.mem_cons_self x seen)

theorem mem_uniqueInOrder {α : Type} [DecidableEq α] (a : α) (l : List α) :
    a ∈ uniqueInOrder l ↔ a ∈ l := by
  simp [uniqueInOrder, mem_uiAux]

theorem nodup_uniqueInOrder {α : Type} [DecidableEq α] (l : List α) :
    (uniqueInOrder l).Nodup :=
  nodup_uiAux l []

theorem uiAux_filter {α : Type} [DecidableEq α] (p : α → Bool) :
    ∀ (l seen seen' : List α),
      (∀ y, p y = true → (y ∈ seen ↔ y ∈ seen')) →
      uiAux seen (l.filter p) = (uiAux seen' l).filter p := by
  intro l
  induction l with
  | nil => intro seen seen' _; simp [uiAux]
  | cons x xs ih =>
    intro seen seen' hinv
    cases hp : p x with
    | true =>
      rw [List.filter_cons_of_pos hp]
      by_cases hx : x ∈ seen
      · have hx' : x ∈ seen' := (hinv x hp).mp hx
        rw [uiAux, if_pos hx, uiAux, if_pos hx']
        exact ih seen seen' hinv
      · have hx' : x ∉ seen' := fun h => hx ((hinv x hp).mpr h)
        rw [uiAux, if_neg hx, uiAux, if_neg hx', List.filter_cons_of_pos hp]
        refine congrArg (x :: ·) (ih (x :: seen) (x :: seen') ?_)
        intro y hy
        constructor
        · intro h
          rcases List.mem_cons.mp h with rfl | h
          · exact List.mem_cons_self y seen'
          · exact List.mem_cons_of_mem x ((hinv y hy).mp h)
        · intro h
          rcases List.mem_cons.mp h with rfl | h
          · exact List.mem_cons_self y seen
          · exact List.mem_cons_of_mem x ((hinv y hy).mpr h)
    | false =>
      rw [List.filter_cons_of_neg (by simp [hp])]
      by_cases hx' : x ∈ seen'
      · rw [uiAux, if_pos hx']
        exact ih seen seen' hinv
      · rw [uiAux, if_neg hx', List.filter_cons_of_neg (by simp [hp])]
        refine ih seen (x :: seen') ?_
        intro y hy
        have hyx : y ≠ x := by
          intro h; rw [h, hp] at hy; cases hy
        rw [hinv y hy]
        constructor
        · exact fun h => List.mem_cons_of_mem x h
        · intro h
          rcases List.mem_cons.mp h with rfl | h
          · exact absurd rfl hyx
          · exact h

theorem uniqueInOrder_filter {α : Type} [DecidableEq α] (p : α → Bool) (l : List α) :
    uniqueInOrder (l.filter p) = (uniqueInOrder l).filter p :=
  uiAux_filter p l [] [] (fun _ _ => Iff.rfl)

/-! ## Lemmas about the lexicographic string order -/

theorem charLe_total : ∀ a b : List Char, charLe a b = true ∨ charLe b a = true := by
  intro a
  induction a with
  | nil => intro b; exact Or.inl rfl
  | cons c cs ih =>
    intro b
    cases b with
    | nil => exact Or.inr rfl
    | cons d ds =>
      by_cases hcd : c = d
      · subst hcd
        rcases ih ds with h | h
        · exact Or.inl (by simp [charLe, h])
        · exact Or.inr (by simp [charLe, h])
      · rcases lt_or_gt_of_ne hcd with h | h
        · exact Or.inl (by simp [charLe, hcd, h])
        · exact Or.inr (by simp [charLe, Ne.symm hcd, h])

theorem charLe_trans : ∀ a b c : List Char,
    charLe a b = true → charLe b c = true → charLe a c = true := by
  intro a
  induction a with
  | nil => intro b c _ _; rfl
  | cons x xs ih =>
    intro b c hab hbc
    cases b with
    | nil => simp [charLe] at hab
    | cons y ys =>
      cases c with
      | nil => simp [charLe] at hbc
      | cons z zs =>
        by_cases hxy : x = y
        · subst hxy
          by_cases hyz : x = z
          · subst hyz
            simp only [charLe, if_pos rfl] at hab hbc ⊢
            exact ih ys zs hab hbc
          · simp only [charLe, if_pos rfl, if_neg hyz] at hab hbc ⊢
            exact hbc
        · by_cases hyz : y = z
          · subst hyz
            simp only [charLe, if_neg hxy] at hab ⊢
            exact hab
          · simp only [charLe, if_neg hxy, if_neg hyz, decide_eq_true_eq] at hab hbc
            have hxz : x < z := lt_trans hab hbc
            simp [charLe, ne_of_lt hxz, hxz]

theorem charLe_antisymm : ∀ a b : List Char,
    charLe a b = true → charLe b a = true → a = b := by
  intro a
  induction a with
  | nil =>
    intro b _ hba
    cases b with
    | nil => rfl
    | cons d ds => simp [charLe] at hba
  | cons x xs ih =>
    intro b hab hba
    cases b with
    | nil => simp [charLe] at hab
    | cons y ys =>
      by_cases hxy : x = y
      · subst hxy
        simp only [charLe, if_pos rfl] at hab hba
        rw [ih ys hab hba]
      · simp only [charLe, if_neg hxy, if_neg (Ne.symm hxy), decide_eq_true_eq]
          at hab hba
        exact absurd hba (lt_asymm hab)

theorem leString_total : ∀ a b : String, leString a b = true ∨ leString b a = true :=
  fun a b => charLe_total a.data b.data

theorem leString_trans : ∀ a b c : String,
    leString a b = true → leString b c = true → leString a c = true :=
  fun a b c => charLe_trans a.data b.data c.data

theorem leString_antisymm {a b : String}
    (hab : leString a b = true) (hba : leString b a = true) : a = b := by
  cases a with
  | mk da =>
    cases b with
    | mk db => exact congrArg String.mk (charLe_antisymm da db hab hba)

theorem ltString_iff {a b : String} :
    ltString a b = true ↔ leString a b = true ∧ a ≠ b := by
  simp [ltString, leString]

theorem ltString_irrefl (a : String) : ltString a a = false := by
  simp [ltString]

theorem ltString_asymm {a b : String} (h : ltString a b = true) :
    ltString b a = false := by
  rcases ltString_iff.mp h with ⟨hle, hne⟩
  by_cases hba : ltString b a = true
  · rcases ltString_iff.mp hba with ⟨hle', _⟩
    exact absurd (leString_antisymm hle hle') hne
  · exact Bool.eq_false_iff.mpr hba

theorem ltString_trans {a b c : String} (hab : ltString a b = true)
    (hbc : ltString b c = true) : ltString a c = true := by
  rcases ltString_iff.mp hab with ⟨h1, hne1⟩
  rcases ltString_iff.mp hbc with ⟨h2, hne2⟩
  refine ltString_iff.mpr ⟨leString_trans a b c h1 h2, ?_⟩
  rintro rfl
  exact hne1 (leString_antisymm h1 h2)

/-! ## Lemmas about the co-occurrence counter -/

theorem cval_bump (k k' : String × String) :
    ∀ c : List ((String × String) × Nat),
      cval k' (bump k c) = if k' = k then cval k' c + 1 else cval k' c := by
  intro c
  induction c with
  | nil =>
    by_cases h : k' = k
    · subst h; simp [bump, cval]
    · have h2 : k ≠ k' := fun h' => h h'.symm
      simp [bump, cval, h, h2]
  | cons e rest ih =>
    by_cases he : e.1 = k
    · rw [bump, if_pos he]
      by_cases hk : k' = k
      · subst hk
        rw [cval, if_pos he, cval, if_pos he]
        simp
      · have : e.1 ≠ k' := fun h => hk (h ▸ he)
        rw [cval, if_neg this, cval, if_neg this, if_neg hk]
    · rw [bump, if_neg he]
      by_cases hk : e.1 = k'
      · rw [cval, if_pos hk, cval, if_pos hk]
        have : k' ≠ k := fun h => he (h ▸ hk)
        rw [if_neg this]
      · rw [cval, if_neg hk, cval, if_neg hk, ih]

theorem cval_foldl_bump (k : String × String) :
    ∀ (l : List (String × String)) (acc : List ((String × String) × Nat)),
      cval k (l.foldl (fun a p => bump p a) acc) = cval k acc + l.count k := by
  intro l
  induction l with
  | nil => intro acc; simp
  | cons p ps ih =>
    intro acc
    rw [List.foldl_cons, ih (bump p acc), cval_bump p k acc, List.count_cons]
    by_cases h : k = p
    · subst h; simp; omega
    · have : ¬(p == k) = true := by simp [Ne.symm h]
      simp [h, this]

theorem mem_keys_bump {k k' : String × String} :
    ∀ {c : List ((String × String) × Nat)},
      k' ∈ (bump k c).map Prod.fst → k' ∈ c.map Prod.fst ∨ k' = k := by
  intro c
  induction c with
  | nil =>
    intro h
    simp [bump] at h
    exact Or.inr h
  | cons e rest ih =>
    intro h
    by_cases he : e.1 = k
    · rw [bump, if_pos he] at h
      simp only [List.map_cons, List.mem_cons] at h ⊢
      exact Or.inl h
    · rw [bump, if_neg he] at h
      simp only [List.map_cons, List.mem_cons] at h ⊢
      rcases h with h | h
      · exact Or.inl (Or.inl h)
      · rcases ih h with h' | h'
        · exact Or.inl (Or.inr h')
        · exact Or.inr h'

theorem mem_keys_foldl {k' : String × String} :
    ∀ (l : List (String × String)) (acc : List ((String × String) × Nat)),
      k' ∈ (l.foldl (fun a p => bump p a) acc).map Prod.fst →
      k' ∈ acc.map Prod.fst ∨ k' ∈ l := by
  intro l
  induction l with
  | nil => intro acc h; exact Or.inl h
  | cons p ps ih =>
    intro acc h
    rcases ih (bump p acc) h with h' | h'
    · rcases mem_keys_bump h' with h'' | h''
      · exact Or.inl h''
      · exact Or.inr (h'' ▸ List.mem_cons_self p ps)
    · exact Or.inr (List.mem_cons_of_mem p h')

theorem keys_nodup_bump {k : String × String} :
    ∀ {c : List ((String × String) × Nat)},
      (c.map Prod.fst).Nodup → ((bump k c).map Prod.fst).Nodup := by
  intro c
  induction c with
  | nil => intro _; simp [bump]
  | cons e rest ih =>
    intro h
    rcases List.nodup_cons.mp h with ⟨he', hrest⟩
    by_cases he : e.1 = k
    · rw [bump, if_pos he]
      exact List.nodup_cons.mpr ⟨he', hrest⟩
    · rw [bump, if_neg he]
      refine List.nodup_cons.mpr ⟨?_, ih hrest⟩
      intro hmem
      rcases mem_keys_bump hmem with h' | h'
      · exact he' h'
      · exact he h'

theorem keys_nodup_foldl :
    ∀ (l : List (String × String)) (acc : List ((String × String) × Nat)),
      (acc.map Prod.fst).Nodup →
      ((l.foldl (fun a p => bump p a) acc).map Prod.fst).Nodup := by
  intro l
  induction l with
  | nil => intro acc h; exact h
  | cons p ps ih => intro acc h; exact ih (bump p acc) (keys_nodup_bump h)

theorem keys_nodup_co_occur (docs : List (List String)) (sw : List String) :
    ((co_occur_counter docs sw).map Prod.fst).Nodup :=
  keys_nodup_foldl (allDocPairs docs sw) [] (by simp)

theorem cval_of_mem {k : String × String} {n : Nat} :
    ∀ {c : List ((String × String) × Nat)},
      (c.map Prod.fst).Nodup → (k, n) ∈ c → cval k c = n := by
  intro c
  induction c with
  | nil => intro _ h; cases h
  | cons e rest ih =>
    intro hnd h
    rcases List.nodup_cons.mp hnd with ⟨he, hrest⟩
    rcases List.mem_cons.mp h with rfl | h'
    · rw [cval, if_pos rfl]
    · by_cases hek : e.1 = k
      · exact absurd (hek ▸ List.mem_map_of_mem Prod.fst h') he
      · rw [cval, if_neg hek]
        exact ih hrest h'

theorem counter_entry_weight {docs : List (List String)} {sw : List String}
    {k : String × String} {n : Nat} (h : (k, n) ∈ co_occur_counter docs sw) :
    n = (allDocPairs docs sw).count k := by
  have h1 := cval_of_mem (keys_nodup_co_occur docs sw) h
  rw [co_occur_counter, cval_foldl_bump] at h1
  simpa [cval] using h1.symm

theorem counter_key_mem {docs : List (List String)} {sw : List String}
    {k : String × String} {n : Nat} (h : (k, n) ∈ co_occur_counter docs sw) :
    k ∈ allDocPairs docs sw := by
  have : k ∈ (co_occur_counter docs sw).map Prod.fst :=
    List.mem_map_of_mem Prod.fst h
  rcases mem_keys_foldl (allDocPairs docs sw) [] this with h' | h'
  · simp at h'
  · exact h'

/-! ## Lemmas about pair combinations -/

theorem mem_pairsOf2 {α : Type} {x y : α} :
    ∀ {l : List α}, (x, y) ∈ pairsOf2 l → x ∈ l ∧ y ∈ l := by
  intro l
  induction l with
  | nil => intro h; cases h
  | cons z zs ih =>
    intro h
    rcases List.mem_append.mp h with h' | h'
    · rcases List.mem_map.mp h' with ⟨b, hb, he⟩
      cases he
      exact ⟨List.mem_cons_self x zs, List.mem_cons_of_mem x hb⟩
    · rcases ih h' with ⟨h1, h2⟩
      exact ⟨List.mem_cons_of_mem z h1, List.mem_cons_of_mem z h2⟩

theorem count_map_pair (x A B : String) :
    ∀ xs : List String,
      ((xs.map (fun y => (x, y))).count (A, B)) = if A = x then xs.count B else 0 := by
  intro xs
  induction xs with
  | nil => simp
  | cons y ys ih =>
    simp only [List.map_cons, List.count_cons, ih]
    by_cases hA : A = x
    · subst hA
      by_cases hB : y = B
      · subst hB; simp
      · simp [hB, Prod.ext_iff]
    · have : ¬((x, y) = (A, B)) := fun h => hA (congrArg Prod.fst h).symm
      simp [hA, this]

theorem count_pairsOf2 (A B : String) :
    ∀ {l : List String},
      List.Pairwise (fun a b => ltString a b = true) l →
      (pairsOf2 l).count (A, B) =
        if A ∈ l ∧ B ∈ l ∧ ltString A B = true then 1 else 0 := by
  intro l
  induction l with
  | nil => simp [pairsOf2]
  | cons x xs ih =>
    intro hl
    rcases List.pairwise_cons.mp hl with ⟨hx, hxs⟩
    have hxnotin : x ∉ xs := by
      intro hmem
      have := hx x hmem
      rw [ltString_irrefl x] at this
      cases this
    have hnodup : xs.Nodup :=
      List.Pairwise.imp (fun hlt => ltString_iff.mp hlt |>.2) hxs
    rw [pairsOf2, List.count_append, count_map_pair, ih hxs]
    by_cases hA : A = x
    · subst hA
      have hAxs : ¬(A ∈ xs ∧ B ∈ xs ∧ ltString A B = true) :=
        fun h => hxnotin h.1
      rw [if_neg hAxs]
      by_cases hB : B ∈ xs
      · rw [List.count_eq_one_of_mem hnodup hB]
        have : A ∈ A :: xs ∧ B ∈ A :: xs ∧ ltString A B = true :=
          ⟨List.mem_cons_self A xs, List.mem_cons_of_mem A hB, hx B hB⟩
        rw [if_pos this]
        simp
      · rw [List.count_eq_zero_of_not_mem hB]
        have : ¬(A ∈ A :: xs ∧ B ∈ A :: xs ∧ ltString A B = true) := by
          rintro ⟨_, hBmem, hlt⟩
          rcases List.mem_cons.mp hBmem with rfl | h
          · rw [ltString_irrefl] at hlt; cases hlt
          · exact hB h
        rw [if_neg this]
        simp
    · rw [if_neg hA, Nat.zero_add]
      by_cases hcond : A ∈ xs ∧ B ∈ xs ∧ ltString A B = true
      · rw [if_pos hcond, if_pos
          ⟨List.mem_cons_of_mem x hcond.1, List.mem_cons_of_mem x hcond.2.1,
            hcond.2.2⟩]
      · rw [if_neg hcond]
        have : ¬(A ∈ x :: xs ∧ B ∈ x :: xs ∧ ltString A B = true) := by
          rintro ⟨hAmem, hBmem, hlt⟩
          rcases List.mem_cons.mp hAmem with rfl | hAmem'
          · exact hA rfl
          rcases List.mem_cons.mp hBmem with rfl | hBmem'
          · have := hx A hAmem'
            rw [ltString_asymm hlt] at this
            cases this
          · exact hcond ⟨hAmem', hBmem', hlt⟩
        rw [if_neg this]

/-! ## Lemmas about per-document unique word sets -/

theorem nodup_docUniqueWords (ws sw : List String) : (docUniqueWords ws sw).Nodup :=
  (perm_sortStable leString _).nodup_iff.mpr
    (nodup_uniqueInOrder (ws.filter (fun w => !sw.contains w)))

theorem pairwise_lt_docUniqueWords (ws sw : List String) :
    List.Pairwise (fun a b => ltString a b = true) (docUniqueWords ws sw) := by
  have h1 : List.Pairwise (fun a b => leString a b = true) (docUniqueWords ws sw) :=
    pairwise_sortStable leString_trans leString_total _
  have h2 : (docUniqueWords ws sw).Nodup := nodup_docUniqueWords ws sw
  exact (h1.and h2).imp (fun h => ltString_iff.mpr ⟨h.1, h.2⟩)

theorem mem_docUniqueWords {a : String} {ws sw : List String} :
    a ∈ docUniqueWords ws sw ↔ a ∈ ws ∧ sw.contains a = false := by
  rw [docUniqueWords, (perm_sortStable leString _).mem_iff, mem_uniqueInOrder]
  simp [List.mem_filter]

theorem count_docPairs (ws sw : List String) (A B : String) :
    (docPairs ws sw).count (A, B) =
      if A ∈ docUniqueWords ws sw ∧ B ∈ docUniqueWords ws sw ∧ ltString A B = true
      then 1 else 0 :=
  count_pairsOf2 A B (pairwise_lt_docUniqueWords ws sw)

theorem count_allDocPairs (sw : List String) (A B : String)
    (hAB : ltString A B = true) :
    ∀ docs : List (List String),
      (allDocPairs docs sw).count (A, B) =
        docs.countP (fun ws =>
          (docUniqueWords ws sw).contains A && (docUniqueWords ws sw).contains B) := by
  intro docs
  induction docs with
  | nil => simp [allDocPairs]
  | cons ws rest ih =>
    rw [allDocPairs, List.flatMap_cons, List.count_append]
    have hrest : (rest.flatMap (fun ws => docPairs ws sw)).count (A, B) =
        rest.countP (fun ws =>
          (docUniqueWords ws sw).contains A && (docUniqueWords ws sw).contains B) := ih
    rw [hrest, List.countP_cons, count_docPairs]
    by_cases h : A ∈ docUniqueWords ws sw ∧ B ∈ docUniqueWords ws sw
    · rw [if_pos ⟨h.1, h.2, hAB⟩, if_pos (by simp [h.1, h.2])]
      omega
    · rw [if_neg (fun hc => h ⟨hc.1, hc.2.1⟩), if_neg (by simp; intro h1 h2; exact absurd ⟨h1, h2⟩ h)]
      omega

/-! ## Lemmas about rank attachment -/

theorem length_addRanks : ∀ (l : List (String × Nat)) (s : Nat),
    (addRanks s l).length = l.length := by
  intro l
  induction l with
  | nil => intro s; rfl
  | cons e rest ih => intro s; simp [addRanks, ih]

theorem get_addRanks : ∀ (l : List (String × Nat)) (s i : Nat)
    (h : i < (addRanks s l).length) (h' : i < l.length),
    (addRanks s l).get ⟨i, h⟩ = (s + i, l.get ⟨i, h'⟩) := by
  intro l
  induction l with
  | nil => intro s i h h'; cases h'
  | cons e rest ih =>
    intro s i h h'
    cases i with
    | zero => simp [addRanks]
    | succ i' =>
      have h2 : i' < (addRanks (s + 1) rest).length := by
        rw [length_addRanks]
        exact Nat.lt_of_succ_lt_succ h'
      have hgoal : (addRanks s (e :: rest)).get ⟨i' + 1, h⟩ =
          (addRanks (s + 1) rest).get ⟨i', h2⟩ := rfl
      rw [hgoal, ih (s + 1) i' h2 (Nat.lt_of_succ_lt_succ h')]
      have : s + 1 + i' = s + (i' + 1) := by omega
      rw [this]
      rfl

theorem mem_addRanks {r : Nat × String × Nat} :
    ∀ (l : List (String × Nat)) (s : Nat), r ∈ addRanks s l → r.2 ∈ l := by
  intro l
  induction l with
  | nil => intro s h; cases h
  | cons e rest ih =>
    intro s h
    rcases List.mem_cons.mp h with rfl | h'
    · simp
    · exact List.mem_cons_of_mem e (ih (s + 1) h')

theorem pairwise_addRanks {R : (String × Nat) → (String × Nat) → Prop} :
    ∀ (l : List (String × Nat)) (s : Nat), List.Pairwise R l →
      List.Pairwise (fun a b => R a.2 b.2) (addRanks s l) := by
  intro l
  induction l with
  | nil => intro s _; simp [addRanks]
  | cons e rest ih =>
    intro s h
    rcases List.pairwise_cons.mp h with ⟨he, hrest⟩
    refine List.pairwise_cons.mpr ⟨?_, ih (s + 1) hrest⟩
    intro b hb
    have hmem := mem_addRanks rest (s + 1) hb
    simpa using he b.2 hmem

/-! ## Counting lemmas for the contingency cells -/

theorem countP_and_not {α : Type} (p q : α → Bool) :
    ∀ l : List α,
      l.countP (fun a => p a && q a) + l.countP (fun a => p a && !q a) =
        l.countP p := by
  intro l
  induction l with
  | nil => simp
  | cons x xs ih =>
    simp only [List.countP_cons]
    cases hp : p x <;> cases hq : q x <;> simp [hp, hq] <;> omega

theorem countP_split {α : Type} (p q : α → Bool) (l : List α) :
    l.countP p = (l.filter q).countP p + (l.filter (fun a => !q a)).countP p := by
  rw [List.countP_filter, List.countP_filter, countP_and_not]

theorem countP_not_add {α : Type} (p : α → Bool) :
    ∀ l : List α, l.countP p + l.countP (fun a => !(p a)) = l.length := by
  intro l
  induction l with
  | nil => rfl
  | cons x xs ih =>
    simp only [List.countP_cons, List.length_cons]
    cases hp : p x <;> simp [hp] <;> omega

theorem attr_partition (docs : List Doc) (v : String) :
    totalInAttr docs v + (nonAttrDocs docs v).length = totalDocs docs := by
  unfold totalInAttr attrDocs nonAttrDocs totalDocs
  rw [← List.countP_eq_length_filter, ← List.countP_eq_length_filter]
  exact countP_not_add _ docs

theorem totalNotInAttr_eq_length (docs : List Doc) (v : String) :
    totalNotInAttr docs v = (nonAttrDocs docs v).length := by
  have := attr_partition docs v
  unfold totalNotInAttr
  omega

/-! ## Comparator facts -/

theorem leByP_trans : ∀ x y z : String × ℚ × ℚ,
    leByP x y = true → leByP y z = true → leByP x z = true := by
  intro x y z h1 h2
  simp only [leByP, decide_eq_true_eq] at h1 h2 ⊢
  exact le_trans h1 h2

theorem leByP_total : ∀ x y : String × ℚ × ℚ,
    leByP x y = true ∨ leByP y x = true := by
  intro x y
  simp only [leByP, decide_eq_true_eq]
  exact le_total x.2.1 y.2.1

theorem geByCount_trans : ∀ x y z : String × Nat,
    geByCount x y = true → geByCount y z = true → geByCount x z = true := by
  intro x y z h1 h2
  simp only [geByCount, Nat.ble_eq] at h1 h2 ⊢
  omega

theorem geByCount_total : ∀ x y : String × Nat,
    geByCount x y = true ∨ geByCount y x = true := by
  intro x y
  simp only [geByCount, Nat.ble_eq]
  omega

theorem geByWeight_trans : ∀ x y z : (String × String) × Nat,
    geByWeight x y = true → geByWeight y z = true → geByWeight x z = true := by
  intro x y z h1 h2
  simp only [geByWeight, Nat.ble_eq] at h1 h2 ⊢
  omega

theorem geByWeight_total : ∀ x y : (String × String) × Nat,
    geByWeight x y = true ∨ geByWeight y x = true := by
  intro x y
  simp only [geByWeight, Nat.ble_eq]
  omega

/-! ## Characterizations of the operation outputs -/

theorem mem_extract_words {w : String} {tokens : List Token}
    (h : w ∈ extract_words tokens) :
    1 < w.length ∧ pyIsdigit w = false := by
  rcases List.mem_map.mp h with ⟨t, ht, rfl⟩
  have hk := (List.mem_filter.mp ht).2
  simp only [keepToken, Bool.and_eq_true, Bool.not_eq_true', decide_eq_true_eq] at hk
  exact ⟨hk.2, hk.1.1.2⟩

theorem mem_freq_rows {words sw : List String} {n : Nat} {r : Nat × String × Nat}
    (h : r ∈ calculate_frequency words sw n) :
    r.2 ∈ counterItems (words.filter (fun w => !sw.contains w)) := by
  simp only [calculate_frequency] at h
  by_cases he : (words.filter (fun w => !sw.contains w)).isEmpty
  · rw [if_pos he] at h; cases h
  · rw [if_neg he] at h
    have h2 := mem_addRanks _ 1 h
    have h3 := (List.take_sublist n _).subset h2
    exact (perm_sortStable geByCount _).mem_iff.mp h3

theorem freq_word_props {words sw : List String} {n : Nat} {r : Nat × String × Nat}
    (h : r ∈ calculate_frequency words sw n) :
    r.2.1 ∈ words ∧ sw.contains r.2.1 = false ∧
      r.2.2 = (words.filter (fun w => !sw.contains w)).count r.2.1 := by
  have h1 := mem_freq_rows h
  rcases List.mem_map.mp h1 with ⟨w, hw, he⟩
  have hw' := (mem_uniqueInOrder w _).mp hw
  rcases List.mem_filter.mp hw' with ⟨hmem, hpred⟩
  rw [← he]
  refine ⟨hmem, ?_, rfl⟩
  simpa using hpred

theorem mem_retainedWords {docs : List Doc} {sw : List String}
    {pval chi2f : Nat → Nat → Nat → Nat → ℚ} {v : String} {e : String × ℚ × ℚ}
    (h : e ∈ retainedWords docs sw pval chi2f v) :
    e.1 ∈ allWords docs sw ∧
      ¬(aCell docs v e.1 + bCell docs v e.1 = 0 ∨
        aCell docs v e.1 + cCell docs v e.1 = 0 ∨
        bCell docs v e.1 + dCell docs v e.1 = 0 ∨
        cCell docs v e.1 + dCell docs v e.1 = 0) ∧
      e.2.1 = pval (aCell docs v e.1) (bCell docs v e.1)
        (cCell docs v e.1) (dCell docs v e.1) ∧
      e.2.1 < pThreshold ∧ expectedA docs v e.1 < (aCell docs v e.1 : ℚ) := by
  simp only [retainedWords, List.mem_filterMap] at h
  rcases h with ⟨w, hw, hfw⟩
  split_ifs at hfw with h1 h2
  cases hfw
  exact ⟨hw, h1, rfl, h2.1, h2.2⟩

theorem ok_char_words {docs : List Doc} {sw : List String}
    {pval chi2f : Nat → Nat → Nat → Nat → ℚ}
    {res : List (String × List (String × ℚ × ℚ))}
    (h : calculate_characteristic_words docs sw pval chi2f = Except.ok res) :
    2 ≤ (uniqueAttrs docs).length ∧
    ∀ vl ∈ res, vl.1 ∈ uniqueAttrs docs ∧
      vl.2 = (sortStable leByP (retainedWords docs sw pval chi2f vl.1)).take 20 := by
  simp only [calculate_characteristic_words] at h
  by_cases hlen : (uniqueAttrs docs).length < 2
  · rw [if_pos hlen] at h; cases h
  · rw [if_neg hlen] at h
    rw [Except.ok.injEq] at h
    refine ⟨by omega, ?_⟩
    intro vl hvl
    rw [← h] at hvl
    rcases List.mem_filterMap.mp hvl with ⟨v, hv, hfv⟩
    split_ifs at hfv with hdeg
    cases hfv
    exact ⟨hv, rfl⟩

theorem mem_allWords {w : String} {docs : List Doc} {sw : List String}
    (h : w ∈ allWords docs sw) :
    (∃ d ∈ docs, w ∈ d.words) ∧ sw.contains w = false := by
  rw [allWords, mem_uniqueInOrder, List.mem_filter] at h
  rcases h with ⟨h1, h2⟩
  rcases List.mem_flatMap.mp h1 with ⟨d, hd, hw⟩
  refine ⟨⟨d, hd, hw⟩, ?_⟩
  simpa using h2

theorem nodup_counterItems (l : List String) : (counterItems l).Nodup :=
  List.Nodup.map (fun _ _ h => congrArg Prod.fst h) (nodup_uniqueInOrder l)

theorem keys_counterItems (l : List String) :
    (counterItems l).map Prod.fst = uniqueInOrder l := by
  rw [counterItems, List.map_map]
  exact List.map_id _ ▸ rfl

/-! ## Claim theorems -/

/-- C6: when the chosen attribute has fewer than 2 distinct non-null
values, `calculate_characteristic_words` returns the structured
"insufficient categories" error value (src/app.py 265) — a
distinguishable error, not a crash — and computes no statistics. -/
theorem C6_insufficient_categories (docs : List Doc) (sw : List String)
    (pval chi2f : Nat → Nat → Nat → Nat → ℚ)
    (h : (uniqueAttrs docs).length < 2) :
    calculate_characteristic_words docs sw pval chi2f =
      Except.error "比較対象の属性が2つ未満です。" := by
  simp only [calculate_characteristic_words, if_pos h]

/-- Witness for C6 at a one-category document set. -/
theorem C6_insufficient_categories_witness :
    calculate_characteristic_words [⟨some "A", ["犬"]⟩] []
      (fun _ _ _ _ => 0) (fun _ _ _ _ => 0) =
      Except.error "比較対象の属性が2つ未満です。" :=
  C6_insufficient_categories [⟨some "A", ["犬"]⟩] []
    (fun _ _ _ _ => 0) (fun _ _ _ _ => 0) (by decide)

/-- C9: `extract_words` has no preconditions — a null or non-string
input value yields the empty token sequence (src/app.py 46-47). -/
theorem C9_non_string_input (tok : String → List Token) (v : CellValue)
    (h : v.isStr = false) : extract_words_cell tok v = [] := by
  cases v with
  | str s => simp [CellValue.isStr] at h
  | null => rfl
  | num x => rfl
  | other => rfl

/-- Witness for C9 at the null input. -/
theorem C9_non_string_input_witness :
    CellValue.null.isStr = false ∧
      extract_words_cell (fun _ => []) CellValue.null = [] :=
  ⟨by decide, C9_non_string_input (fun _ => []) CellValue.null (by decide)⟩

/-- C2 counterexample: `extract_words` applies no stopword filter, so a
token whose base form is the baseline stopword 思う (a two-character
verb, not numeric) does appear in the extracted token sequence even
though it belongs to the active stopword set. -/
theorem C2_stopword_in_token_sequence :
    "思う" ∈ extract_words [⟨"思う", "思う", ["動詞", "自立"]⟩] ∧
      "思う" ∈ BASE_STOPWORDS := by
  constructor <;> decide

/-- C2 (amended): `extract_words` performs no stopword filtering, so
stopword members can appear in a Document's token sequence; instead
every downstream statistic applies the active stopword set itself
(src/app.py 470, 541-542, 266), so no stopword member appears in a
frequency table, in the co-occurrence counter, or among the
characteristic words. -/
theorem C2_stopwords_filtered_downstream (tokens : List Token)
    (sw : List String) (n : Nat) (docs : List (List String)) (ds : List Doc)
    (pval chi2f : Nat → Nat → Nat → Nat → ℚ) :
    (∀ r ∈ calculate_frequency (extract_words tokens) sw n, r.2.1 ∉ sw) ∧
    (∀ e ∈ co_occur_counter docs sw, e.1.1 ∉ sw ∧ e.1.2 ∉ sw) ∧
    (∀ res, calculate_characteristic_words ds sw pval chi2f = Except.ok res →
      ∀ vl ∈ res, ∀ cw ∈ vl.2, cw.1 ∉ sw) := by
  refine ⟨?_, ?_, ?_⟩
  · intro r hr
    have h1 := (freq_word_props hr).2.1
    simpa using h1
  · intro e he
    have he' : (e.1, e.2) ∈ co_occur_counter docs sw := by simpa using he
    have hmem := counter_key_mem he'
    rcases List.mem_flatMap.mp hmem with ⟨ws, hws, hpair⟩
    have hpair' : (e.1.1, e.1.2) ∈ pairsOf2 (docUniqueWords ws sw) := by
      simpa [docPairs] using hpair
    rcases mem_pairsOf2 hpair' with ⟨h1, h2⟩
    have hc1 := (mem_docUniqueWords.mp h1).2
    have hc2 := (mem_docUniqueWords.mp h2).2
    constructor
    · simpa using hc1
    · simpa using hc2
  · intro res hres vl hvl cw hcw
    have hchar := (ok_char_words hres).2 vl hvl
    rw [hchar.2] at hcw
    have h1 := (List.take_sublist 20 _).subset hcw
    have h2 := (perm_sortStable leByP _).mem_iff.mp h1
    have h3 := (mem_retainedWords h2).1
    have h4 := (mem_allWords h3).2
    simpa using h4

/-- Witness for the amended C2 at concrete inputs. -/
theorem C2_stopwords_filtered_downstream_witness :
    (∀ r ∈ calculate_frequency (extract_words
        [⟨"思う", "思う", ["動詞", "自立"]⟩]) ["思う"] 50, r.2.1 ∉ ["思う"]) ∧
    (∀ e ∈ co_occur_counter [["a", "思う", "b"]] ["思う"],
      e.1.1 ∉ ["思う"] ∧ e.1.2 ∉ ["思う"]) ∧
    (∀ res, calculate_characteristic_words
        [⟨some "A", ["思う", "犬"]⟩, ⟨some "B", ["猫"]⟩] ["思う"]
        (fun _ _ _ _ => 0) (fun _ _ _ _ => 0) = Except.ok res →
      ∀ vl ∈ res, ∀ cw ∈ vl.2, cw.1 ∉ ["思う"]) :=
  C2_stopwords_filtered_downstream [⟨"思う", "思う", ["動詞", "自立"]⟩]
    ["思う"] 50 [["a", "思う", "b"]]
    [⟨some "A", ["思う", "犬"]⟩, ⟨some "B", ["猫"]⟩]
    (fun _ _ _ _ => 0) (fun _ _ _ _ => 0)

/-- C7: every word in a frequency table computed over token lists coming
from `extract_words` is not a stopword, is longer than one character,
and is not purely numeric. -/
theorem C7_freq_words_filtered (tokenLists : List (List Token))
    (sw : List String) (n : Nat) :
    ∀ r ∈ calculate_frequency ((tokenLists.map extract_words).flatten) sw n,
      r.2.1 ∉ sw ∧ 1 < r.2.1.length ∧ pyIsdigit r.2.1 = false := by
  intro r hr
  obtain ⟨hmem, hsw, -⟩ := freq_word_props hr
  have h1 : r.2.1 ∉ sw := by simpa using hsw
  rcases List.mem_flatten.mp hmem with ⟨l, hl, hw⟩
  rcases List.mem_map.mp hl with ⟨toks, htoks, rfl⟩
  have h2 := mem_extract_words hw
  exact ⟨h1, h2.1, h2.2⟩

/-- Witness for C7 at a concrete token list. -/
theorem C7_freq_words_filtered_witness :
    (1, "犬猫", 1) ∈ calculate_frequency
      (([[⟨"犬猫", "犬猫", ["名詞", "一般"]⟩]].map extract_words).flatten) [] 50 ∧
    (((1, "犬猫", 1) : Nat × String × Nat).2.1 ∉ ([] : List String) ∧
      1 < "犬猫".length ∧ pyIsdigit "犬猫" = false) :=
  ⟨by decide,
    C7_freq_words_filtered [[⟨"犬猫", "犬猫", ["名詞", "一般"]⟩]] [] 50
      (1, "犬猫", 1) (by decide)⟩

/-- C8: the co-occurrence graph built by `generate_network` contains no
self-loop, and every counted pair key is canonicalized: its two words
are in (strict) lexicographic order, both for the graph edges and for
every key of the underlying counter. -/
theorem C8_no_self_loops (docs : List (List String)) (sw : List String)
    (tp : List ((String × String) × Nat))
    (h : generate_network docs sw = Except.ok tp) :
    (∀ e ∈ tp, e.1.1 ≠ e.1.2 ∧ ltString e.1.1 e.1.2 = true) ∧
    (∀ e ∈ co_occur_counter docs sw,
      e.1.1 ≠ e.1.2 ∧ ltString e.1.1 e.1.2 = true) := by
  have hcounter : ∀ e ∈ co_occur_counter docs sw,
      e.1.1 ≠ e.1.2 ∧ ltString e.1.1 e.1.2 = true := by
    intro e he
    have he' : (e.1, e.2) ∈ co_occur_counter docs sw := by simpa using he
    have hmem := counter_key_mem he'
    rcases List.mem_flatMap.mp hmem with ⟨ws, hws, hpair⟩
    have hcount : 0 < (docPairs ws sw).count (e.1.1, e.1.2) := by
      rw [List.count_pos_iff]
      simpa [docPairs] using hpair
    rw [count_docPairs] at hcount
    by_cases hc : e.1.1 ∈ docUniqueWords ws sw ∧ e.1.2 ∈ docUniqueWords ws sw ∧
        ltString e.1.1 e.1.2 = true
    · exact ⟨(ltString_iff.mp hc.2.2).2, hc.2.2⟩
    · rw [if_neg hc] at hcount
      exact absurd hcount (lt_irrefl 0)
  refine ⟨?_, hcounter⟩
  intro e he
  have htp : tp = top_pairs docs sw := by
    simp only [generate_network] at h
    by_cases hemp : (top_pairs docs sw).isEmpty
    · rw [if_pos hemp] at h; cases h
    · rw [if_neg hemp] at h
      cases h
      rfl
  rw [htp, top_pairs] at he
  have h1 := (List.take_sublist 70 _).subset he
  have h2 := (perm_sortStable geByWeight _).mem_iff.mp h1
  exact hcounter e h2

/-- Witness for C8 at a two-word document. -/
theorem C8_no_self_loops_witness : "a" ≠ "b" ∧ ltString "a" "b" = true := by
  have h := C8_no_self_loops [["b", "a"]] [] [(("a", "b"), 1)] (by rfl)
  exact h.1 (("a", "b"), 1) (by decide)

/-- C3: every pair `(A, B)` counted by `generate_network` has weight
equal to the number of documents whose stopword-filtered unique word set
contains both `A` and `B` (presence per document, not within-document
repetition), and that weight is at most the smaller of the two words'
document counts. -/
theorem C3_cooccurrence_weights (docs : List (List String))
    (sw : List String) (A B : String) (N : Nat)
    (h : ((A, B), N) ∈ co_occur_counter docs sw) :
    N = docs.countP (fun ws =>
        (docUniqueWords ws sw).contains A && (docUniqueWords ws sw).contains B) ∧
    N ≤ min (docs.countP (fun ws => (docUniqueWords ws sw).contains A))
        (docs.countP (fun ws => (docUniqueWords ws sw).contains B)) := by
  have hN := counter_entry_weight h
  have hmem := counter_key_mem h
  rcases List.mem_flatMap.mp hmem with ⟨ws, hws, hpair⟩
  have hcount : 0 < (docPairs ws sw).count (A, B) := by
    rw [List.count_pos_iff]
    simpa [docPairs] using hpair
  rw [count_docPairs] at hcount
  by_cases hc : A ∈ docUniqueWords ws sw ∧ B ∈ docUniqueWords ws sw ∧
      ltString A B = true
  case neg =>
    rw [if_neg hc] at hcount
    exact absurd hcount (lt_irrefl 0)
  rw [count_allDocPairs sw A B hc.2.2 docs] at hN
  refine ⟨hN, ?_⟩
  rw [hN]
  refine le_min ?_ ?_
  · exact List.countP_mono_left (fun x _ hx => (Bool.and_eq_true _ _ |>.mp hx).1)
  · exact List.countP_mono_left (fun x _ hx => (Bool.and_eq_true _ _ |>.mp hx).2)

/-- Witness for C3 at a three-document corpus where the pair (a, b) has
weight 2. -/
theorem C3_cooccurrence_weights_witness :
    (2 = [["b", "a"], ["a", "b"], ["a"]].countP (fun ws =>
        (docUniqueWords ws []).contains "a" && (docUniqueWords ws []).contains "b") ∧
      2 ≤ min
        ([["b", "a"], ["a", "b"], ["a"]].countP
          (fun ws => (docUniqueWords ws []).contains "a"))
        ([["b", "a"], ["a", "b"], ["a"]].countP
          (fun ws => (docUniqueWords ws []).contains "b"))) :=
  C3_cooccurrence_weights [["b", "a"], ["a", "b"], ["a"]] [] "a" "b" 2 (by decide)

/-! ## Null-attribute decomposition lemmas (for C10) -/

theorem attrDocs_filter_isSome (docs : List Doc) (v : String) :
    attrDocs (docs.filter (fun d => d.attr.isSome)) v = attrDocs docs v := by
  unfold attrDocs
  rw [List.filter_filter]
  refine List.filter_congr ?_
  intro d _
  cases h : d.attr <;> simp [h]

theorem nonAttrDocs_filter_isSome (docs : List Doc) (v : String) :
    nonAttrDocs (docs.filter (fun d => d.attr.isSome)) v =
      (nonAttrDocs docs v).filter (fun d => d.attr.isSome) := by
  unfold nonAttrDocs
  rw [List.filter_filter, List.filter_filter]
  refine List.filter_congr ?_
  intro d _
  cases h : d.attr <;> simp [h]

theorem nonAttrDocs_filter_null (docs : List Doc) (v : String) :
    (nonAttrDocs docs v).filter (fun d => !d.attr.isSome) =
      docs.filter (fun d => d.attr == none) := by
  unfold nonAttrDocs
  rw [List.filter_filter]
  refine List.filter_congr ?_
  intro d _
  cases h : d.attr <;> simp [h]

theorem filterMap_attr_filter (docs : List Doc) :
    (docs.filter (fun d => d.attr.isSome)).filterMap Doc.attr =
      docs.filterMap Doc.attr := by
  induction docs with
  | nil => rfl
  | cons d rest ih =>
    cases h : d.attr with
    | none =>
      rw [List.filter_cons_of_neg (by simp [h]), List.filterMap_cons, h, ih]
    | some u =>
      rw [List.filter_cons_of_pos (by simp [h]), List.filterMap_cons, h,
        List.filterMap_cons, h, ih]

/-- C10: a document whose value for the chosen attribute is null is not
excluded from `calculate_characteristic_words`: the category values come
only from non-null cells, the total document count includes the null
rows, null rows never land in cells a or c, and for every category they
contribute to cell b (when they contain the word) or to cell d (when
they do not). -/
theorem C10_null_attr_docs_counted (docs : List Doc) (v w : String) :
    totalDocs docs = totalDocs (docs.filter (fun d => d.attr.isSome)) +
      (docs.filter (fun d => d.attr == none)).length ∧
    uniqueAttrs docs = uniqueAttrs (docs.filter (fun d => d.attr.isSome)) ∧
    aCell docs v w = aCell (docs.filter (fun d => d.attr.isSome)) v w ∧
    cCell docs v w = cCell (docs.filter (fun d => d.attr.isSome)) v w ∧
    bCell docs v w = bCell (docs.filter (fun d => d.attr.isSome)) v w +
      (docs.filter (fun d => d.attr == none)).countP
        (fun d => d.words.contains w) ∧
    dCell docs v w = dCell (docs.filter (fun d => d.attr.isSome)) v w +
      (docs.filter (fun d => d.attr == none)).countP
        (fun d => !(d.words.contains w)) := by
  have hnulleq : (docs.filter (fun d => !d.attr.isSome)) =
      docs.filter (fun d => d.attr == none) := by
    refine List.filter_congr ?_
    intro d _
    cases h : d.attr <;> simp [h]
  have htotal : totalDocs docs = totalDocs (docs.filter (fun d => d.attr.isSome)) +
      (docs.filter (fun d => d.attr == none)).length := by
    unfold totalDocs
    rw [← hnulleq, ← List.countP_eq_length_filter, ← List.countP_eq_length_filter]
    exact (countP_not_add (fun d => d.attr.isSome) docs).symm
  have hb : bCell docs v w = bCell (docs.filter (fun d => d.attr.isSome)) v w +
      (docs.filter (fun d => d.attr == none)).countP
        (fun d => d.words.contains w) := by
    unfold bCell
    rw [nonAttrDocs_filter_isSome, ← nonAttrDocs_filter_null docs v]
    exact countP_split _ _ (nonAttrDocs docs v)
  refine ⟨htotal, ?_, ?_, ?_, hb, ?_⟩
  · unfold uniqueAttrs
    rw [filterMap_attr_filter]
  · unfold aCell
    rw [attrDocs_filter_isSome]
  · unfold cCell totalInAttr aCell
    rw [attrDocs_filter_isSome]
  · -- cell d by arithmetic over the previous decompositions
    have h1 : totalNotInAttr docs v = (nonAttrDocs docs v).length :=
      totalNotInAttr_eq_length docs v
    have h2 : totalNotInAttr (docs.filter (fun d => d.attr.isSome)) v =
        (nonAttrDocs (docs.filter (fun d => d.attr.isSome)) v).length :=
      totalNotInAttr_eq_length _ v
    have h3 : (nonAttrDocs docs v).length =
        (nonAttrDocs (docs.filter (fun d => d.attr.isSome)) v).length +
        (docs.filter (fun d => d.attr == none)).length := by
      rw [nonAttrDocs_filter_isSome, ← nonAttrDocs_filter_null docs v,
        ← List.countP_eq_length_filter, ← List.countP_eq_length_filter]
      exact (countP_not_add (fun d => d.attr.isSome) (nonAttrDocs docs v)).symm
    have h4 : (docs.filter (fun d => d.attr == none)).countP
          (fun d => d.words.contains w) +
        (docs.filter (fun d => d.attr == none)).countP
          (fun d => !(d.words.contains w)) =
        (docs.filter (fun d => d.attr == none)).length :=
      countP_not_add _ _
    have h5 : bCell (docs.filter (fun d => d.attr.isSome)) v w ≤
        (nonAttrDocs (docs.filter (fun d => d.attr.isSome)) v).length := by
      unfold bCell
      exact List.countP_le_length _
    unfold dCell
    rw [h1, h2, hb, h3]
    omega

/-- Witness for C10 at a corpus containing null-attribute documents. -/
theorem C10_null_attr_docs_counted_witness :
    totalDocs docsWithNulls =
      totalDocs (docsWithNulls.filter (fun d => d.attr.isSome)) +
      (docsWithNulls.filter (fun d => d.attr == none)).length ∧
    uniqueAttrs docsWithNulls =
      uniqueAttrs (docsWithNulls.filter (fun d => d.attr.isSome)) ∧
    aCell docsWithNulls "A" "x" =
      aCell (docsWithNulls.filter (fun d => d.attr.isSome)) "A" "x" ∧
    cCell docsWithNulls "A" "x" =
      cCell (docsWithNulls.filter (fun d => d.attr.isSome)) "A" "x" ∧
    bCell docsWithNulls "A" "x" =
      bCell (docsWithNulls.filter (fun d => d.attr.isSome)) "A" "x" +
      (docsWithNulls.filter (fun d => d.attr == none)).countP
        (fun d => d.words.contains "x") ∧
    dCell docsWithNulls "A" "x" =
      dCell (docsWithNulls.filter (fun d => d.attr.isSome)) "A" "x" +
      (docsWithNulls.filter (fun d => d.attr == none)).countP
        (fun d => !(d.words.contains "x")) :=
  C10_null_attr_docs_counted docsWithNulls "A" "x"

/-- C4: a non-stopword word contained in the token list of every
document is never reported as a characteristic word for any category:
its cells c and d are both zero, so the zero-marginal guard skips it. -/
theorem C4_uniform_word_never_characteristic (docs : List Doc)
    (sw : List String) (pval chi2f : Nat → Nat → Nat → Nat → ℚ) (X : String)
    (hX : ∀ d ∈ docs, X ∈ d.words) (hXsw : X ∉ sw)
    (res : List (String × List (String × ℚ × ℚ)))
    (h : calculate_characteristic_words docs sw pval chi2f = Except.ok res) :
    ∀ vl ∈ res, ∀ e ∈ vl.2, e.1 ≠ X := by
  intro vl hvl e he heX
  have hchar := (ok_char_words h).2 vl hvl
  rw [hchar.2] at he
  have h1 := (List.take_sublist 20 _).subset he
  have h2 := (perm_sortStable leByP _).mem_iff.mp h1
  obtain ⟨-, hmarg, -, -, -⟩ := mem_retainedWords h2
  rw [heX] at hmarg
  apply hmarg
  right; right; right
  have ha : aCell docs vl.1 X = totalInAttr docs vl.1 :=
    List.countP_eq_length.mpr (fun d hd => by
      simpa using hX d (List.mem_filter.mp hd).1)
  have hb : bCell docs vl.1 X = (nonAttrDocs docs vl.1).length :=
    List.countP_eq_length.mpr (fun d hd => by
      simpa using hX d (List.mem_filter.mp hd).1)
  unfold cCell dCell
  rw [ha, hb, totalNotInAttr_eq_length]
  omega

/-- Witness for C4: with x in every document, only 犬 and 猫 are
reported, never x. -/
theorem C4_uniform_word_never_characteristic_witness :
    ("犬", mkRat 1 100, (0 : ℚ)).1 ≠ "x" := by
  have h := C4_uniform_word_never_characteristic
    [⟨some "A", ["x", "犬"]⟩, ⟨some "B", ["x", "猫"]⟩] []
    (fun _ _ _ _ => mkRat 1 100) (fun _ _ _ _ => 0) "x"
    (by decide) (by decide)
    [("A", [("犬", mkRat 1 100, 0)]), ("B", [("猫", mkRat 1 100, 0)])] (by rfl)
  exact h ("A", [("犬", mkRat 1 100, 0)]) (by decide)
    ("犬", mkRat 1 100, 0) (by decide)

/-- C1: every characteristic-word entry returned for a category has
p-value below 0.05 and an observed cell-a count strictly above the
chi-squared expected count, and each category's list is sorted ascending
by p-value and holds at most 20 entries. -/
theorem C1_characteristic_words_sound (docs : List Doc) (sw : List String)
    (pval chi2f : Nat → Nat → Nat → Nat → ℚ)
    (res : List (String × List (String × ℚ × ℚ)))
    (h : calculate_characteristic_words docs sw pval chi2f = Except.ok res) :
    ∀ vl ∈ res,
      vl.2.length ≤ 20 ∧
      List.Pairwise (fun e f => e.2.1 ≤ f.2.1) vl.2 ∧
      ∀ e ∈ vl.2, e.2.1 < pThreshold ∧
        expectedA docs vl.1 e.1 < (aCell docs vl.1 e.1 : ℚ) := by
  intro vl hvl
  have hchar := (ok_char_words h).2 vl hvl
  rw [hchar.2]
  refine ⟨List.length_take_le 20 _, ?_, ?_⟩
  · have hs := pairwise_sortStable leByP_trans leByP_total
      (retainedWords docs sw pval chi2f vl.1)
    have ht := List.Pairwise.sublist (List.take_sublist 20 _) hs
    exact ht.imp (fun hle => by simpa [leByP] using hle)
  · intro e he
    have h1 := (List.take_sublist 20 _).subset he
    have h2 := (perm_sortStable leByP _).mem_iff.mp h1
    obtain ⟨-, -, -, hlt, hexp⟩ := mem_retainedWords h2
    exact ⟨hlt, hexp⟩

/-- Witness for C1 at a two-document, two-category corpus. -/
theorem C1_characteristic_words_sound_witness :
    ([("犬", mkRat 1 100, (0 : ℚ))] : List (String × ℚ × ℚ)).length ≤ 20 ∧
    List.Pairwise (fun e f => e.2.1 ≤ f.2.1)
      ([("犬", mkRat 1 100, (0 : ℚ))] : List (String × ℚ × ℚ)) ∧
    (mkRat 1 100 < pThreshold ∧
      expectedA [⟨some "A", ["犬"]⟩, ⟨some "B", ["猫"]⟩] "A" "犬" <
        (aCell [⟨some "A", ["犬"]⟩, ⟨some "B", ["猫"]⟩] "A" "犬" : ℚ)) := by
  have h := C1_characteristic_words_sound
    [⟨some "A", ["犬"]⟩, ⟨some "B", ["猫"]⟩] []
    (fun _ _ _ _ => mkRat 1 100) (fun _ _ _ _ => 0)
    [("A", [("犬", mkRat 1 100, 0)]), ("B", [("猫", mkRat 1 100, 0)])] (by rfl)
  have h2 := h ("A", [("犬", mkRat 1 100, 0)]) (by decide)
  exact ⟨h2.1, h2.2.1, h2.2.2 ("犬", mkRat 1 100, 0) (by decide)⟩

/-- C5: `calculate_frequency` returns rows ranked 1, 2, … with rank 1
the highest frequency, frequencies descending, at most `top_n` rows
(the source defaults `top_n` to 50), ties broken stably by order of
first appearance in the input sequence, and an empty input — or one
whose words are all stopwords — yields the empty table, not an error. -/
theorem C5_frequency_table (words sw : List String) (top_n : Nat) :
    (∀ i (hi : i < (calculate_frequency words sw top_n).length),
      ((calculate_frequency words sw top_n).get ⟨i, hi⟩).1 = i + 1) ∧
    List.Pairwise (fun r s => s.2.2 ≤ r.2.2)
      (calculate_frequency words sw top_n) ∧
    (calculate_frequency words sw top_n).length ≤ top_n ∧
    (∀ i j (hi : i < (calculate_frequency words sw top_n).length)
        (hj : j < (calculate_frequency words sw top_n).length), i < j →
      ((calculate_frequency words sw top_n).get ⟨i, hi⟩).2.2 =
        ((calculate_frequency words sw top_n).get ⟨j, hj⟩).2.2 →
      List.Sublist [((calculate_frequency words sw top_n).get ⟨i, hi⟩).2.1,
          ((calculate_frequency words sw top_n).get ⟨j, hj⟩).2.1]
        (uniqueInOrder words)) ∧
    (words.filter (fun w => !sw.contains w) = [] →
      calculate_frequency words sw top_n = []) := by
  by_cases hemp : (words.filter (fun w => !sw.contains w)).isEmpty
  · have ht : calculate_frequency words sw top_n = [] := by
      simp only [calculate_frequency, if_pos hemp]
    rw [ht]
    refine ⟨?_, ?_, ?_, ?_, ?_⟩
    · intro i hi; exact absurd hi (by simp)
    · simp
    · simp
    · intro i j hi hj _ _; exact absurd hi (by simp)
    · intro _; rfl
  · have ht : calculate_frequency words sw top_n =
        addRanks 1 ((sortStable geByCount (counterItems
          (words.filter (fun w => !sw.contains w)))).take top_n) := by
      simp only [calculate_frequency, if_neg hemp]
    rw [ht]
    have hS := pairwise_sortStable geByCount_trans geByCount_total
      (counterItems (words.filter (fun w => !sw.contains w)))
    have hnodupCI := nodup_counterItems (words.filter (fun w => !sw.contains w))
    have hnodupS : (sortStable geByCount (counterItems
        (words.filter (fun w => !sw.contains w)))).Nodup :=
      (perm_sortStable geByCount _).nodup_iff.mpr hnodupCI
    refine ⟨?_, ?_, ?_, ?_, ?_⟩
    · intro i hi
      have hi' : i < ((sortStable geByCount (counterItems
          (words.filter (fun w => !sw.contains w)))).take top_n).length := by
        rw [← length_addRanks]; exact hi
      rw [get_addRanks _ 1 i hi hi']
      show 1 + i = i + 1
      omega
    · have hT := List.Pairwise.sublist (List.take_sublist top_n _) hS
      have hA := pairwise_addRanks _ 1 hT
      exact hA.imp (fun h => by simpa [geByCount, Nat.ble_eq] using h)
    · rw [length_addRanks]
      exact List.length_take_le top_n _
    · intro i j hi hj hij hfreq
      have hi' : i < ((sortStable geByCount (counterItems
          (words.filter (fun w => !sw.contains w)))).take top_n).length := by
        rw [← length_addRanks]; exact hi
      have hj' : j < ((sortStable geByCount (counterItems
          (words.filter (fun w => !sw.contains w)))).take top_n).length := by
        rw [← length_addRanks]; exact hj
      rw [get_addRanks _ 1 i hi hi', get_addRanks _ 1 j hj hj'] at hfreq ⊢
      have hfreq2 : (((sortStable geByCount (counterItems
          (words.filter (fun w => !sw.contains w)))).take top_n).get
            ⟨i, hi'⟩).2 =
          (((sortStable geByCount (counterItems
          (words.filter (fun w => !sw.contains w)))).take top_n).get
            ⟨j, hj'⟩).2 := hfreq
      show List.Sublist
        [(((sortStable geByCount (counterItems
            (words.filter (fun w => !sw.contains w)))).take top_n).get
              ⟨i, hi'⟩).1,
         (((sortStable geByCount (counterItems
            (words.filter (fun w => !sw.contains w)))).take top_n).get
              ⟨j, hj'⟩).1]
        (uniqueInOrder words)
      have hxyT := pair_sublist_of_get _ i j hi' hj' hij
      have hxyS := hxyT.trans (List.take_sublist top_n _)
      have hnodupT := List.Nodup.sublist (List.take_sublist top_n _) hnodupS
      have hxy_ne : (((sortStable geByCount (counterItems
          (words.filter (fun w => !sw.contains w)))).take top_n).get
            ⟨i, hi'⟩) ≠
          (((sortStable geByCount (counterItems
          (words.filter (fun w => !sw.contains w)))).take top_n).get
            ⟨j, hj'⟩) := by
        intro hxyeq
        have := (List.Nodup.get_inj_iff hnodupT).mp hxyeq
        rw [Fin.mk.injEq] at this
        omega
      have hxCI := (perm_sortStable geByCount _).mem_iff.mp
        (hxyS.subset (List.mem_cons_self _ _))
      have hyCI := (perm_sortStable geByCount _).mem_iff.mp
        (hxyS.subset (List.mem_cons_of_mem _ (List.mem_cons_self _ _)))
      rcases sublist_pair_of_mem hxy_ne hxCI hyCI with hord | hord
      · have hmap := List.Sublist.map Prod.fst hord
        rw [keys_counterItems] at hmap
        have hkeys : List.Sublist
            [(((sortStable geByCount (counterItems
                (words.filter (fun w => !sw.contains w)))).take top_n).get
                  ⟨i, hi'⟩).1,
             (((sortStable geByCount (counterItems
                (words.filter (fun w => !sw.contains w)))).take top_n).get
                  ⟨j, hj'⟩).1]
            (uniqueInOrder (words.filter (fun w => !sw.contains w))) := hmap
        rw [uniqueInOrder_filter] at hkeys
        exact hkeys.trans (List.filter_sublist _)
      · have hle : geByCount
            (((sortStable geByCount (counterItems
                (words.filter (fun w => !sw.contains w)))).take top_n).get
                  ⟨j, hj'⟩)
            (((sortStable geByCount (counterItems
                (words.filter (fun w => !sw.contains w)))).take top_n).get
                  ⟨i, hi'⟩) = true := by
          simp only [geByCount, Nat.ble_eq, hfreq2]
          exact Nat.le_refl _
        have hyxS := pair_sublist_sortStable geByCount hle hord
        exact absurd (sublist_pair_antisymm hnodupS hxyS hyxS) hxy_ne
    · intro h
      rw [h] at hemp
      exact absurd rfl hemp

/-- Witness for C5 at a concrete word list with a repeated word. -/
theorem C5_frequency_table_witness :
    ((calculate_frequency ["b", "a", "b"] [] 50).get ⟨0, by decide⟩).1 = 0 + 1 ∧
    List.Pairwise (fun r s => s.2.2 ≤ r.2.2)
      (calculate_frequency ["b", "a", "b"] [] 50) ∧
    (calculate_frequency ["b", "a", "b"] [] 50).length ≤ 50 := by
  have h := C5_frequency_table ["b", "a", "b"] [] 50
  exact ⟨h.1 0 (by decide), h.2.1, h.2.2.1⟩

end App
